import Mathlib

/-!
# Shallow embedding of the graphpipe backend core

This file embeds the concurrency-and-simulation core of the graphpipe
backend (Rust) in Lean 4 and verifies the specified properties of its
graph store, layout engine and background scheduler.

Conventions of the embedding:
* `f64` coordinates are modelled by exact rationals (`ℚ`); none of the
  verified properties depends on floating-point rounding.
* Rust `&mut self` methods become functions `Graph → ... → Graph` (or
  return the updated state next to an error, mirroring that a failed
  call can still have mutated the receiver).
* `bimap::BiMap` is modelled as an association list together with the
  crate's insert semantics: inserting a pair first removes any pair
  sharing its left or its right component.  The well-formedness that
  the real hash-based bimap maintains by construction (no duplicate
  lefts, no duplicate rights) is an explicit predicate `GoodMap`.
* The external `fjadra` force simulation is not source code of this
  repository; it is modelled abstractly as a `Physics` record carrying
  the initial-placement function and the one-tick force update, both
  uninterpreted.  No verified property depends on the numeric values it
  produces.
* `Backtrace` payloads of the error enums are dropped; `SystemTime`
  creation timestamps are dropped (no verified property mentions them).
-/

/-- Stable node identifier: newtype over `String` (`graph.rs::NodeId`). -/
structure NodeId where
  s : String
deriving DecidableEq, Repr

/-- Stable edge identifier: newtype over `String` (`graph.rs::EdgeId`). -/
structure EdgeId where
  s : String
deriving DecidableEq, Repr

/-- `graph.rs::NodeData`: the node label. -/
structure NodeData where
  label : String
deriving DecidableEq, Repr

/-- `graph.rs::Pos(pub f64, pub f64)`, with `f64` modelled as `ℚ`. -/
structure Pos where
  x : ℚ
  y : ℚ
deriving DecidableEq, Repr

/-- `graph.rs::Node`: stable id, label data, optional 2-D position. -/
structure Node where
  id : NodeId
  data : NodeData
  pos : Option Pos
deriving DecidableEq, Repr

/-- `graph.rs::Edge`: carries only its stable id. -/
structure Edge where
  id : EdgeId
deriving DecidableEq, Repr

/-- `graph.rs::Error`, without the `Backtrace` payloads. -/
inductive GError where
  | nodeNotFound (id : String)
  | edgeNotFound (id : String)
  | nodeIndexNotFound (index : Nat)
  | edgeIndexNotFound (index : Nat)
  | unsupportedEdgeNode
deriving DecidableEq, Repr

/-- `layout.rs::Error`: transparently wraps a graph error. -/
inductive LError where
  | graphError (e : GError)
deriving DecidableEq, Repr

/-- Rust's `collect::<Result<Vec<_>, _>>()` over an iterator of
fallible items: the first error aborts the collection. -/
def collectExcept {α β : Type} (f : α → Except GError β) : List α → Except GError (List β)
  | [] => .ok []
  | a :: rest =>
    match f a with
    | .error e => .error e
    | .ok b =>
      match collectExcept f rest with
      | .error e => .error e
      | .ok bs => .ok (b :: bs)

/-! ## The `bimap::BiMap` model

An association list of `(left, right)` pairs.  `get_by_left` /
`get_by_right` scan for the first matching pair; `insert` first removes
every pair whose left or right component collides, then appends. -/

/-- `BiMap::get_by_left`. -/
def getByLeft {α β : Type} [DecidableEq α] (m : List (α × β)) (a : α) : Option β :=
  (m.find? (fun p => decide (p.1 = a))).map (·.2)

/-- `BiMap::get_by_right`. -/
def getByRight {α β : Type} [DecidableEq β] (m : List (α × β)) (b : β) : Option α :=
  (m.find? (fun p => decide (p.2 = b))).map (·.1)

/-- `BiMap::contains_left`. -/
def containsLeft {α β : Type} [DecidableEq α] (m : List (α × β)) (a : α) : Bool :=
  (getByLeft m a).isSome

/-- `BiMap::insert`: remove the pairs colliding on either side, add the pair. -/
def bimapInsert {α β : Type} [DecidableEq α] [DecidableEq β]
    (m : List (α × β)) (a : α) (b : β) : List (α × β) :=
  (m.filter (fun p => decide (p.1 ≠ a) && decide (p.2 ≠ b))) ++ [(a, b)]

/-- Well-formedness the real (hash-based) `BiMap` maintains by
construction: no two pairs share a left and no two share a right. -/
def GoodMap {α β : Type} (m : List (α × β)) : Prop :=
  (m.map Prod.fst).Nodup ∧ (m.map Prod.snd).Nodup

instance {α β : Type} [DecidableEq α] [DecidableEq β] (m : List (α × β)) :
    Decidable (GoodMap m) := by
  unfold GoodMap
  infer_instance

/-! ## The graph store (`graph.rs::Graph`)

`petgraph::Graph<Node, Edge>` is modelled by its observable behaviour:
a list of node weights addressed by dense index (`add_node` appends and
returns the old length) and a list of edges `(source, target, weight)`
(`add_edge` appends).  `neighbors_undirected i` yields, per incident
edge, the opposite endpoint. -/

/-- The `petgraph::Graph<Node, Edge>` storage. -/
structure Pet where
  nodes : List Node
  edges : List (Nat × Nat × Edge)
deriving DecidableEq, Repr

/-- `petgraph`'s `neighbors_undirected`, as the list of opposite
endpoints of the edges incident to `i` (one entry per incident edge; a
self-loop contributes itself once). -/
def Pet.neighborIndices (p : Pet) (i : Nat) : List Nat :=
  p.edges.filterMap (fun e =>
    if e.1 = i then some e.2.1
    else if e.2.1 = i then some e.1
    else none)

/-- `graph.rs::Graph`: petgraph storage, the two id↔slot bimaps and the
monotone id counter (the `SystemTime` creation timestamp is dropped). -/
structure Graph where
  pet : Pet
  node_id_map : List (NodeId × Nat)
  edge_id_map : List (EdgeId × Nat)
  id_counter : Nat
deriving DecidableEq, Repr

namespace Graph

/-- `Graph::new()`. -/
def new : Graph :=
  { pet := { nodes := [], edges := [] }
    node_id_map := []
    edge_id_map := []
    id_counter := 0 }

/-- `Graph::resolve_node_index`. -/
def resolve_node_index (g : Graph) (id : NodeId) : Except GError Nat :=
  match getByLeft g.node_id_map id with
  | some i => .ok i
  | none => .error (.nodeNotFound id.s)

/-- `Graph::resolve_node_id`. -/
def resolve_node_id (g : Graph) (index : Nat) : Except GError NodeId :=
  match getByRight g.node_id_map index with
  | some id => .ok id
  | none => .error (.nodeIndexNotFound index)

/-- `Graph::add_node`: look the id up; reuse its slot if present, else
append a fresh node weight; then (re-)insert the pair into the bimap.
When the id exists the passed `node` record is discarded. -/
def add_node (g : Graph) (node : Node) : Graph :=
  let node_id := node.id
  match getByLeft g.node_id_map node_id with
  | some node_index =>
    { g with node_id_map := bimapInsert g.node_id_map node_id node_index }
  | none =>
    let node_index := g.pet.nodes.length
    { g with
      pet := { g.pet with nodes := g.pet.nodes ++ [node] }
      node_id_map := bimapInsert g.node_id_map node_id node_index }

/-- `Graph::ensure_node`: no-op when the id is mapped, otherwise add a
placeholder node whose label is the id and whose position is absent. -/
def ensure_node (g : Graph) (node_id : NodeId) : Graph :=
  match getByLeft g.node_id_map node_id with
  | some _ => g
  | none =>
    g.add_node { id := node_id, data := { label := node_id.s }, pos := none }

/-- `Graph::get_node_mut`, read side: resolve the id to a slot, then
fetch the weight (`node_weight_mut(..).ok_or(node_not_found)`). -/
def get_node (g : Graph) (node_id : NodeId) : Except GError Node :=
  match g.resolve_node_index node_id with
  | .error e => .error e
  | .ok node_index =>
    match g.pet.nodes[node_index]? with
    | some n => .ok n
    | none => .error (.nodeNotFound node_id.s)

/-- `Graph::node_neighbors`: resolve the id, then fetch every
undirected neighbour's weight, failing on a dangling index. -/
def node_neighbors (g : Graph) (node_id : NodeId) : Except GError (List Node) :=
  match g.resolve_node_index node_id with
  | .error e => .error e
  | .ok node_index =>
    collectExcept (fun j =>
      match g.pet.nodes[j]? with
      | some n => .ok n
      | none => .error (.nodeIndexNotFound j))
      (g.pet.neighborIndices node_index)

/-- The id pattern generated by `Graph::new_edge_id`: `_gpe{n}`. -/
def genEdgeId (n : Nat) : EdgeId :=
  { s := "_gpe" ++ toString n }

/-- The retry loop of `Graph::new_edge_id`, with explicit fuel.  Each
round increments the counter and tests the generated id against the
edge bimap.  `edge_id_map.length + 1` rounds always suffice (the
candidate ids are pairwise distinct while the map holds
`edge_id_map.length` lefts), so the fuel-exhausted branch is
unreachable from the loop's own invariant; it returns the current
candidate so the function stays total. -/
def new_edge_id_fuel : Nat → Graph → EdgeId × Graph
  | 0, g =>
    let c := g.id_counter + 1
    (genEdgeId c, { g with id_counter := c })
  | fuel + 1, g =>
    let c := g.id_counter + 1
    let g' := { g with id_counter := c }
    let id := genEdgeId c
    if containsLeft g'.edge_id_map id then new_edge_id_fuel fuel g'
    else (id, g')

/-- `Graph::new_edge_id`: retry generated ids until one is unmapped;
only the id counter is mutated. -/
def new_edge_id (g : Graph) : EdgeId × Graph :=
  new_edge_id_fuel (g.edge_id_map.length + 1) g

/-- The body of `Graph::add_edge` once the edge id is fixed: resolve
both endpoints left to right — the `?` on either resolution returns
before anything is inserted — then append the edge to petgraph storage
and insert the id↦slot pair. -/
def add_edge_resolved (g : Graph) (a b : NodeId) (edge_id : EdgeId) :
    Graph × Option GError :=
  let edge : Edge := { id := edge_id }
  match g.resolve_node_index a with
  | .error e => (g, some e)
  | .ok ia =>
    match g.resolve_node_index b with
    | .error e => (g, some e)
    | .ok ib =>
      let edge_index := g.pet.edges.length
      ({ g with
         pet := { g.pet with edges := g.pet.edges ++ [(ia, ib, edge)] }
         edge_id_map := bimapInsert g.edge_id_map edge_id edge_index },
       none)

/-- `Graph::add_edge`: `edge_id.unwrap_or_else(|| self.new_edge_id())`
— the supplied id, or a generated one (which advances the counter) —
then the resolve-and-insert body above. -/
def add_edge (g : Graph) (a b : NodeId) (edge_id? : Option EdgeId) :
    Graph × Option GError :=
  match edge_id? with
  | some e => g.add_edge_resolved a b e
  | none =>
    let idg := g.new_edge_id
    idg.2.add_edge_resolved a b idg.1

end Graph

/-! ## The layout engine (`layout.rs`)

The external `fjadra` simulation is modelled abstractly.  `Physics`
carries the engine's initial placement (keeping supplied positions and
choosing an engine default for absent ones) and the one-tick update of
the `Link` + `ManyBody` force pass; both are uninterpreted functions —
every theorem below quantifies over them. -/

/-- `Node::layout_node`: a default `fjadra::Node`, with the position
set when the graph node has one.  Modelled as the optional position
handed to the simulation builder. -/
def Node.layout_node (n : Node) : Option Pos :=
  n.pos

/-- Abstract model of the external `fjadra` engine behaviour fixed by
`Layout::new` (builder defaults; `Link` with strength 0.1, distance 30,
1 iteration; `ManyBody`). -/
structure Physics where
  place : List (Option Pos) → List Pos
  force : List (Nat × Nat) → List Pos → List Pos

/-- Abstract model of `fjadra::Simulation`: the current positions and
the one-tick update closed over the installed forces. -/
structure Simulation where
  positions : List Pos
  step1 : List Pos → List Pos

/-- `Simulation::tick(n)`: apply the force pass `n` times. -/
def Simulation.tick (s : Simulation) (n : Nat) : Simulation :=
  { s with positions := s.step1^[n] s.positions }

/-- `SimulationBuilder::default().build(..).add_force("link", ..)
.add_force("charge", ..)`, abstractly. -/
def simBuild (ph : Physics) (inits : List (Option Pos))
    (links : List (Nat × Nat)) : Simulation :=
  { positions := ph.place inits, step1 := ph.force links }

/-- `layout.rs::NodesEdges`: the result of one step — nodes (with
updated positions) and the edge list by stable ids.  Note: it carries
no finished flag. -/
structure NodesEdges where
  nodes : List Node
  edges : List (NodeId × NodeId × Edge)
deriving DecidableEq, Repr

/-- `layout.rs::Layout`: the snapshot node list, the edge list by
stable ids, and the live simulation. -/
structure Layout where
  nodes : List Node
  edges : List (NodeId × NodeId × Edge)
  sim : Simulation

namespace Layout

/-- The accumulation step of `Layout::update_node_pos`'s neighbour
loop: add a positioned neighbour's coordinates to the running sums and
bump the count; skip a neighbour without a position. -/
def posAccum (acc : ℚ × ℚ × Nat) (nb : Node) : ℚ × ℚ × Nat :=
  match nb.pos with
  | some p => (acc.1 + p.x, acc.2.1 + p.y, acc.2.2 + 1)
  | none => acc

/-- `Layout::update_node_pos`: a node lacking a position is seeded from
its undirected neighbours — the loop accumulates the coordinate sums
and the count of the neighbours that have a position, and divides when
the count is positive; otherwise the position stays absent.  A node
that already has a position is returned as is. -/
def update_node_pos (node : Node) (g : Graph) : Except GError Node :=
  match node.pos with
  | none =>
    match g.node_neighbors node.id with
    | .error e => .error e
    | .ok nbrs =>
      let acc : ℚ × ℚ × Nat := nbrs.foldl posAccum (0, 0, 0)
      if acc.2.2 > 0 then
        .ok { node with
              pos := some { x := acc.1 / (acc.2.2 : ℚ), y := acc.2.1 / (acc.2.2 : ℚ) } }
      else
        .ok { node with pos := none }
  | some p => .ok { node with pos := some p }

/-- The per-edge resolution `Layout::new` maps over the snapshot edges:
look both endpoints' stable ids up, failing on a dangling index. -/
def resolve_edge_entry (g : Graph) (e : Nat × Nat × Edge) :
    Except GError (NodeId × NodeId × Edge) :=
  match g.resolve_node_id e.1 with
  | .error er => .error er
  | .ok src =>
    match g.resolve_node_id e.2.1 with
    | .error er => .error er
    | .ok tgt => .ok (src, tgt, e.2.2)

/-- `Layout::new`: seed every snapshot node via `update_node_pos`,
build the simulation over the seeded nodes with the edges referring to
nodes by their position in the snapshot list, and resolve each edge's
endpoints to stable ids. -/
def new (ph : Physics) (g : Graph) : Except LError Layout :=
  match collectExcept (fun node => update_node_pos node g) g.pet.nodes with
  | .error e => .error (.graphError e)
  | .ok nodes =>
    let sim := simBuild ph (nodes.map Node.layout_node)
      (g.pet.edges.map (fun e => (e.1, e.2.1)))
    match collectExcept (resolve_edge_entry g) g.pet.edges with
    | .error e => .error (.graphError e)
    | .ok edges => .ok { sim := sim, nodes := nodes, edges := edges }

/-- `Layout::step`: tick the simulation once, pair the captured nodes
with the fresh positions, and return them with the captured edge list.
The mutation of `self.sim` is modelled by also returning the updated
layout.  The Rust return type is `NodesEdges` alone — there is no
finished flag in it. -/
def step (l : Layout) : Layout × NodesEdges :=
  let sim := l.sim.tick 1
  let positions := sim.positions
  let nodes := (l.nodes.zip positions).map (fun np =>
    { np.1 with pos := some np.2 })
  ({ l with sim := sim }, { nodes := nodes, edges := l.edges })

/-- The write `Layout::apply` performs on one stored node: when the
result node carries a position, `set_pos` overwrites the stored one;
otherwise the stored node is untouched. -/
def applyWrite (n w : Node) : Node :=
  match n.pos with
  | some p => { w with pos := some p }
  | none => w

/-- `Layout::apply`: for each result node in order, resolve its id in
the store (`get_node_mut`) and, when the result node carries a
position, overwrite the stored node's position with it.  The first
failed resolution aborts the loop; the store keeps the writes already
made (modelled by returning the graph next to the optional error). -/
def apply (ns : List Node) (g : Graph) : Graph × Option LError :=
  match ns with
  | [] => (g, none)
  | n :: rest =>
    match g.resolve_node_index n.id with
    | .error e => (g, some (.graphError e))
    | .ok node_index =>
      match g.pet.nodes[node_index]? with
      | none => (g, some (.graphError (.nodeNotFound n.id.s)))
      | some w =>
        apply rest
          { g with pet :=
            { g.pet with nodes := g.pet.nodes.set node_index (applyWrite n w) } }

end Layout

/-! ## The background scheduler (`bg_layout.rs`) -/

/-- The publish decision of one iteration of `BgLayout::run`: an
`Update` is sent when `!was_finished || !is_finished`. -/
def publishDecision (wasFinished isFinished : Bool) : Bool :=
  !wasFinished || !isFinished

/-- The sequence of publish decisions made by `BgLayout::run` when the
successive `do_layout` calls report the given finished flags, starting
from the given `was_finished` (the loop carries `was_finished :=
is_finished` to the next iteration). -/
def runPublishes (wasFinished : Bool) : List Bool → List Bool
  | [] => []
  | isFinished :: rest =>
    publishDecision wasFinished isFinished :: runPublishes isFinished rest

/-- `BgLayout::run` initializes `was_finished = false`. -/
def schedulerPublishes (flags : List Bool) : List Bool :=
  runPublishes false flags

/-- The finished flag of the iteration preceding iteration `i` (the
initial `was_finished = false` before iteration 0). -/
def prevFinished (flags : List Bool) : Nat → Bool
  | 0 => false
  | i + 1 => flags.getD i false

/-! ## The control handle (`bg_layout.rs::BgControl`) -/

/-- Model of `tokio::sync::broadcast` handles, by the only structure
`BgControl::updates` observes: upgrading the weak sender either yields
a live sender or nothing, and a live sender hands out fresh
receivers. -/
inductive UpdatesOutcome where
  | subscribed
  | panicked
deriving DecidableEq, Repr

/-- `BgControl::updates`: match on `self.updates_tx.upgrade()` — a live
sender yields a fresh receiver via `subscribe()`; a dead one falls into
`todo!()`, which panics. -/
def BgControl.updates (upgraded : Option Unit) : UpdatesOutcome :=
  match upgraded with
  | some _ => .subscribed
  | none => .panicked

/-! ## Store operations as a single type, for stating invariants -/

/-- The mutating store operations the invariants quantify over:
`add_node`, `ensure_node`, `add_edge` and `Layout::apply` of a step
result. -/
inductive Op where
  | addNode (n : Node)
  | ensureNode (id : NodeId)
  | addEdge (a b : NodeId) (edge_id? : Option EdgeId)
  | applyStep (ns : List Node)
deriving Repr

/-- Run one operation against the store (dropping the error channel:
the returned graph is the store's state after the call either way). -/
def applyOp (g : Graph) : Op → Graph
  | .addNode n => g.add_node n
  | .ensureNode id => g.ensure_node id
  | .addEdge a b e => (g.add_edge a b e).1
  | .applyStep ns => (Layout.apply ns g).1

/-- A sequence of store operations from the given state. -/
def applyOps (g : Graph) (ops : List Op) : Graph :=
  ops.foldl applyOp g

/-- Every slot the node bimap maps to is a live storage index.  The
real store maintains this because `add_node` maps fresh ids to the slot
it just appended. -/
def consistentMap (g : Graph) : Prop :=
  ∀ p ∈ g.node_id_map, p.2 < g.pet.nodes.length

instance (g : Graph) : Decidable (consistentMap g) := by
  unfold consistentMap
  infer_instance

/-- The node with the given stable id is stored and has a set
position. -/
def posSet (g : Graph) (id : NodeId) : Prop :=
  ∃ idx n, getByLeft g.node_id_map id = some idx ∧
    g.pet.nodes[idx]? = some n ∧ n.pos.isSome = true

/-! ## Concrete instances used by the witnesses

`gB` is the store of the spec's Scenario B: node `x` with explicit
position `(0,0)`, node `y` with no position, and the edge `x–y`.
`ph0` is a trivial instantiation of the abstract physics. -/

def xId : NodeId := { s := "x" }

def yId : NodeId := { s := "y" }

def zId : NodeId := { s := "z" }

def eId : EdgeId := { s := "e" }

def xNode : Node :=
  { id := xId, data := { label := "x" }, pos := some { x := 0, y := 0 } }

def yNode : Node :=
  { id := yId, data := { label := "y" }, pos := none }

def gB : Graph :=
  { pet := { nodes := [xNode, yNode], edges := [(0, 1, { id := eId })] }
    node_id_map := [(xId, 0), (yId, 1)]
    edge_id_map := [(eId, 0)]
    id_counter := 0 }

def ph0 : Physics :=
  { place := fun l => l.map (fun o => o.getD { x := 0, y := 0 })
    force := fun _ ps => ps }

/-- The layout Scenario B's store produces under `ph0`:
`y` is seeded at `(0,0)`, the position of its only neighbour. -/
def lB : Layout :=
  { nodes := [xNode, { yNode with pos := some { x := 0, y := 0 } }]
    edges := [(xId, yId, { id := eId })]
    sim := simBuild ph0
      [some { x := 0, y := 0 }, some { x := 0, y := 0 }] [(0, 1)] }

/-- A one-node layout with an inert simulation, used to evaluate
`Layout::step` at a concrete input. -/
def exLayout : Layout :=
  { nodes := [xNode]
    edges := []
    sim := { positions := [{ x := 1, y := 2 }], step1 := fun ps => ps } }

/-! ## Lemmas about the bimap model -/

section BiMapLemmas

variable {α β : Type} [DecidableEq α] [DecidableEq β]

theorem getByLeft_mem {m : List (α × β)} {a : α} {b : β}
    (h : getByLeft m a = some b) : (a, b) ∈ m := by
  unfold getByLeft at h
  obtain ⟨p, hp, hpb⟩ := Option.map_eq_some'.mp h
  have hmem := List.mem_of_find?_eq_some hp
  have hpa := List.find?_some hp
  have : p.1 = a := by simpa using hpa
  have : p = (a, b) := by
    cases p
    simp_all
  simpa [this] using hmem

theorem getByLeft_isSome_of_mem {m : List (α × β)} {a : α} {b : β}
    (h : (a, b) ∈ m) : ∃ b', getByLeft m a = some b' := by
  unfold getByLeft
  have : (m.find? (fun p => decide (p.1 = a))).isSome = true := by
    rw [List.find?_isSome]
    exact ⟨(a, b), h, by simp⟩
  obtain ⟨p, hp⟩ := Option.isSome_iff_exists.mp this
  exact ⟨p.2, by rw [hp]; rfl⟩

theorem getByLeft_eq_none_iff {m : List (α × β)} {a : α} :
    getByLeft m a = none ↔ ∀ b, (a, b) ∉ m := by
  constructor
  · intro h b hb
    obtain ⟨b', hb'⟩ := getByLeft_isSome_of_mem hb
    rw [h] at hb'
    cases hb'
  · intro h
    cases hg : getByLeft m a with
    | none => rfl
    | some b => exact absurd (getByLeft_mem hg) (h b)

theorem left_unique {m : List (α × β)} (h : (m.map Prod.fst).Nodup)
    {a : α} {b b' : β} (h1 : (a, b) ∈ m) (h2 : (a, b') ∈ m) : b = b' := by
  induction m with
  | nil => cases h1
  | cons p rest ih =>
    have hnd : p.1 ∉ rest.map Prod.fst ∧ (rest.map Prod.fst).Nodup :=
      List.nodup_cons.mp (by simpa using h)
    rcases List.mem_cons.mp h1 with e1 | m1 <;>
      rcases List.mem_cons.mp h2 with e2 | m2
    · exact congrArg Prod.snd (e1.trans e2.symm)
    · exfalso
      apply hnd.1
      have hpa : p.1 = a := by rw [← e1]
      rw [hpa]
      exact List.mem_map.mpr ⟨(a, b'), m2, rfl⟩
    · exfalso
      apply hnd.1
      have hpa : p.1 = a := by rw [← e2]
      rw [hpa]
      exact List.mem_map.mpr ⟨(a, b), m1, rfl⟩
    · exact ih hnd.2 m1 m2

theorem right_unique {m : List (α × β)} (h : (m.map Prod.snd).Nodup)
    {a a' : α} {b : β} (h1 : (a, b) ∈ m) (h2 : (a', b) ∈ m) : a = a' := by
  induction m with
  | nil => cases h1
  | cons p rest ih =>
    have hnd : p.2 ∉ rest.map Prod.snd ∧ (rest.map Prod.snd).Nodup :=
      List.nodup_cons.mp (by simpa using h)
    rcases List.mem_cons.mp h1 with e1 | m1 <;>
      rcases List.mem_cons.mp h2 with e2 | m2
    · exact congrArg Prod.fst (e1.trans e2.symm)
    · exfalso
      apply hnd.1
      have hpb : p.2 = b := by rw [← e1]
      rw [hpb]
      exact List.mem_map.mpr ⟨(a', b), m2, rfl⟩
    · exfalso
      apply hnd.1
      have hpb : p.2 = b := by rw [← e2]
      rw [hpb]
      exact List.mem_map.mpr ⟨(a, b), m1, rfl⟩
    · exact ih hnd.2 m1 m2

theorem getByLeft_eq_some_iff {m : List (α × β)} (h : GoodMap m)
    {a : α} {b : β} : getByLeft m a = some b ↔ (a, b) ∈ m := by
  constructor
  · exact getByLeft_mem
  · intro hm
    obtain ⟨b', hb'⟩ := getByLeft_isSome_of_mem hm
    have := left_unique h.1 (getByLeft_mem hb') hm
    rw [hb', this]

theorem getByRight_mem {m : List (α × β)} {a : α} {b : β}
    (h : getByRight m b = some a) : (a, b) ∈ m := by
  unfold getByRight at h
  obtain ⟨p, hp, hpb⟩ := Option.map_eq_some'.mp h
  have hmem := List.mem_of_find?_eq_some hp
  have hpa := List.find?_some hp
  have : p.2 = b := by simpa using hpa
  have : p = (a, b) := by
    cases p
    simp_all
  simpa [this] using hmem

theorem getByRight_isSome_of_mem {m : List (α × β)} {a : α} {b : β}
    (h : (a, b) ∈ m) : ∃ a', getByRight m b = some a' := by
  unfold getByRight
  have : (m.find? (fun p => decide (p.2 = b))).isSome = true := by
    rw [List.find?_isSome]
    exact ⟨(a, b), h, by simp⟩
  obtain ⟨p, hp⟩ := Option.isSome_iff_exists.mp this
  exact ⟨p.1, by rw [hp]; rfl⟩

theorem getByRight_eq_some_iff {m : List (α × β)} (h : GoodMap m)
    {a : α} {b : β} : getByRight m b = some a ↔ (a, b) ∈ m := by
  constructor
  · exact getByRight_mem
  · intro hm
    obtain ⟨a', ha'⟩ := getByRight_isSome_of_mem hm
    have := right_unique h.2 (getByRight_mem ha') hm
    rw [ha', this]

theorem mem_bimapInsert {m : List (α × β)} {a c : α} {b d : β} :
    (c, d) ∈ bimapInsert m a b ↔
      (c = a ∧ d = b) ∨ ((c, d) ∈ m ∧ c ≠ a ∧ d ≠ b) := by
  unfold bimapInsert
  simp [List.mem_filter, and_comm, and_assoc, or_comm]

theorem goodMap_bimapInsert {m : List (α × β)} (h : GoodMap m)
    (a : α) (b : β) : GoodMap (bimapInsert m a b) := by
  unfold bimapInsert GoodMap
  constructor
  · rw [List.map_append]
    apply List.Nodup.append
    · exact ((h.1).sublist ((List.filter_sublist m).map Prod.fst))
    · simp
    · intro x hx hxa
      simp only [List.map_cons, List.map_nil, List.mem_singleton] at hxa
      subst hxa
      obtain ⟨p, hp, hpx⟩ := List.mem_map.mp hx
      have := (List.mem_filter.mp hp).2
      simp [hpx] at this
  · rw [List.map_append]
    apply List.Nodup.append
    · exact ((h.2).sublist ((List.filter_sublist m).map Prod.snd))
    · simp
    · intro x hx hxa
      simp only [List.map_cons, List.map_nil, List.mem_singleton] at hxa
      subst hxa
      obtain ⟨p, hp, hpx⟩ := List.mem_map.mp hx
      have := (List.mem_filter.mp hp).2
      simp [hpx] at this

theorem goodMap_roundtrip_left {m : List (α × β)} (h : GoodMap m)
    {a : α} {b : β} (hab : getByLeft m a = some b) : getByRight m b = some a :=
  (getByRight_eq_some_iff h).mpr (getByLeft_mem hab)

theorem goodMap_roundtrip_right {m : List (α × β)} (h : GoodMap m)
    {a : α} {b : β} (hab : getByRight m b = some a) : getByLeft m a = some b :=
  (getByLeft_eq_some_iff h).mpr (getByRight_mem hab)

end BiMapLemmas

/-! ## Lemmas about the store operations -/

theorem new_edge_id_fuel_preserves (fuel : Nat) (g : Graph) :
    (Graph.new_edge_id_fuel fuel g).2.pet = g.pet ∧
    (Graph.new_edge_id_fuel fuel g).2.node_id_map = g.node_id_map ∧
    (Graph.new_edge_id_fuel fuel g).2.edge_id_map = g.edge_id_map := by
  induction fuel generalizing g with
  | zero => exact ⟨rfl, rfl, rfl⟩
  | succ n ih =>
    unfold Graph.new_edge_id_fuel
    by_cases hc :
        containsLeft g.edge_id_map (Graph.genEdgeId (g.id_counter + 1)) = true
    · simpa [hc] using ih { g with id_counter := g.id_counter + 1 }
    · simp [hc]

theorem new_edge_id_preserves (g : Graph) :
    (Graph.new_edge_id g).2.pet = g.pet ∧
    (Graph.new_edge_id g).2.node_id_map = g.node_id_map ∧
    (Graph.new_edge_id g).2.edge_id_map = g.edge_id_map :=
  new_edge_id_fuel_preserves _ g

theorem add_edge_resolved_preserves (g : Graph) (a b : NodeId) (e : EdgeId) :
    (g.add_edge_resolved a b e).1.pet.nodes = g.pet.nodes ∧
    (g.add_edge_resolved a b e).1.node_id_map = g.node_id_map := by
  unfold Graph.add_edge_resolved
  cases h1 : g.resolve_node_index a with
  | error er => simp [h1]
  | ok ia =>
    cases h2 : g.resolve_node_index b with
    | error er => simp [h1, h2]
    | ok ib => simp [h1, h2]

theorem add_edge_preserves (g : Graph) (a b : NodeId) (e? : Option EdgeId) :
    (g.add_edge a b e?).1.pet.nodes = g.pet.nodes ∧
    (g.add_edge a b e?).1.node_id_map = g.node_id_map := by
  cases e? with
  | some e => exact add_edge_resolved_preserves g a b e
  | none =>
    obtain ⟨hp, hn, he⟩ := new_edge_id_preserves g
    have h := add_edge_resolved_preserves (Graph.new_edge_id g).2 a b
      (Graph.new_edge_id g).1
    exact ⟨h.1.trans (congrArg Pet.nodes hp), h.2.trans hn⟩

theorem apply_preserves (ns : List Node) (g : Graph) :
    (Layout.apply ns g).1.node_id_map = g.node_id_map ∧
    (Layout.apply ns g).1.pet.nodes.length = g.pet.nodes.length ∧
    (Layout.apply ns g).1.pet.edges = g.pet.edges ∧
    (Layout.apply ns g).1.edge_id_map = g.edge_id_map := by
  induction ns generalizing g with
  | nil => exact ⟨rfl, rfl, rfl, rfl⟩
  | cons n rest ih =>
    unfold Layout.apply
    cases h1 : g.resolve_node_index n.id with
    | error er => simp [h1]
    | ok i =>
      cases h2 : g.pet.nodes[i]? with
      | none => simp [h1, h2]
      | some w =>
        simp only [h1, h2]
        have h3 := ih { g with pet :=
          { g.pet with nodes := g.pet.nodes.set i (Layout.applyWrite n w) } }
        simpa using h3

theorem goodMap_add_node {g : Graph} (h : GoodMap g.node_id_map) (n : Node) :
    GoodMap (g.add_node n).node_id_map := by
  unfold Graph.add_node
  cases hg : getByLeft g.node_id_map n.id with
  | some i =>
    simp only [hg]
    exact goodMap_bimapInsert h n.id i
  | none =>
    simp only [hg]
    exact goodMap_bimapInsert h n.id g.pet.nodes.length

theorem goodMap_ensure_node {g : Graph} (h : GoodMap g.node_id_map)
    (id : NodeId) : GoodMap (g.ensure_node id).node_id_map := by
  unfold Graph.ensure_node
  cases hg : getByLeft g.node_id_map id with
  | some i =>
    simp only [hg]
    exact h
  | none =>
    simp only [hg]
    exact goodMap_add_node h _

theorem goodMap_applyOp {g : Graph} (h : GoodMap g.node_id_map) (op : Op) :
    GoodMap (applyOp g op).node_id_map := by
  cases op with
  | addNode n => exact goodMap_add_node h n
  | ensureNode id => exact goodMap_ensure_node h id
  | addEdge a b e =>
    show GoodMap (g.add_edge a b e).1.node_id_map
    rw [(add_edge_preserves g a b e).2]
    exact h
  | applyStep ns =>
    show GoodMap (Layout.apply ns g).1.node_id_map
    rw [(apply_preserves ns g).1]
    exact h

theorem goodMap_new : GoodMap Graph.new.node_id_map :=
  ⟨List.nodup_nil, List.nodup_nil⟩

theorem goodMap_applyOps (ops : List Op) {g : Graph}
    (h : GoodMap g.node_id_map) : GoodMap (applyOps g ops).node_id_map := by
  induction ops generalizing g with
  | nil => exact h
  | cons op rest ih => exact ih (goodMap_applyOp h op)

theorem resolve_node_index_ok_iff (g : Graph) (x : NodeId) (i : Nat) :
    g.resolve_node_index x = .ok i ↔ getByLeft g.node_id_map x = some i := by
  unfold Graph.resolve_node_index
  cases hg : getByLeft g.node_id_map x <;> simp [hg]

theorem resolve_node_index_err (g : Graph) (x : NodeId)
    (h : getByLeft g.node_id_map x = none) :
    g.resolve_node_index x = .error (.nodeNotFound x.s) := by
  unfold Graph.resolve_node_index
  rw [h]

theorem resolve_node_id_ok_iff (g : Graph) (i : Nat) (x : NodeId) :
    g.resolve_node_id i = .ok x ↔ getByRight g.node_id_map i = some x := by
  unfold Graph.resolve_node_id
  cases hg : getByRight g.node_id_map i <;> simp [hg]

theorem posSet_add_node {g : Graph} (hmap : GoodMap g.node_id_map)
    {id : NodeId} (hpos : posSet g id) (n : Node) : posSet (g.add_node n) id := by
  obtain ⟨idx, nd, hL, hN, hP⟩ := hpos
  have hmem : (id, idx) ∈ g.node_id_map := getByLeft_mem hL
  unfold Graph.add_node
  cases hg : getByLeft g.node_id_map n.id with
  | some j =>
    simp only [hg]
    have hmemj : (n.id, j) ∈ g.node_id_map := getByLeft_mem hg
    have hgm := goodMap_bimapInsert hmap n.id j
    have hmem2 : (id, idx) ∈ bimapInsert g.node_id_map n.id j := by
      rw [mem_bimapInsert]
      by_cases hid : id = n.id
      · left
        subst hid
        exact ⟨rfl, left_unique hmap.1 hmem hmemj⟩
      · right
        refine ⟨hmem, hid, ?_⟩
        intro hij
        subst hij
        exact hid (right_unique hmap.2 hmem hmemj)
    exact ⟨idx, nd, (getByLeft_eq_some_iff hgm).mpr hmem2, hN, hP⟩
  | none =>
    simp only [hg]
    have hlt : idx < g.pet.nodes.length := (List.getElem?_eq_some.mp hN).1
    have hgm := goodMap_bimapInsert hmap n.id g.pet.nodes.length
    have hid : id ≠ n.id := by
      intro h
      subst h
      exact absurd hmem (getByLeft_eq_none_iff.mp hg idx)
    have hmem2 : (id, idx) ∈ bimapInsert g.node_id_map n.id g.pet.nodes.length := by
      rw [mem_bimapInsert]
      exact Or.inr ⟨hmem, hid, Nat.ne_of_lt hlt⟩
    refine ⟨idx, nd, (getByLeft_eq_some_iff hgm).mpr hmem2, ?_, hP⟩
    show (g.pet.nodes ++ [n])[idx]? = some nd
    rw [List.getElem?_append_left hlt]
    exact hN

theorem posSet_apply {g : Graph} {id : NodeId} (hpos : posSet g id)
    (ns : List Node) : posSet (Layout.apply ns g).1 id := by
  induction ns generalizing g with
  | nil => exact hpos
  | cons n rest ih =>
    show posSet (Layout.apply (n :: rest) g).1 id
    unfold Layout.apply
    cases h1 : g.resolve_node_index n.id with
    | error er => simpa [h1] using hpos
    | ok i =>
      cases h2 : g.pet.nodes[i]? with
      | none => simpa [h1, h2] using hpos
      | some w =>
        simp only [h1, h2]
        apply ih
        obtain ⟨idx, nd, hL, hN, hP⟩ := hpos
        by_cases hidx : idx = i
        · subst hidx
          have hw : nd = w := Option.some.inj (hN.symm.trans h2)
          have hlt : idx < g.pet.nodes.length := (List.getElem?_eq_some.mp hN).1
          refine ⟨idx, Layout.applyWrite n w, hL, ?_, ?_⟩
          · show (g.pet.nodes.set idx (Layout.applyWrite n w))[idx]? = _
            rw [List.getElem?_set_self hlt]
          · unfold Layout.applyWrite
            cases hnp : n.pos with
            | some p => simp
            | none =>
              simp only []
              rw [← hw]
              exact hP
        · refine ⟨idx, nd, hL, ?_, hP⟩
          show (g.pet.nodes.set i (Layout.applyWrite n w))[idx]? = some nd
          rw [List.getElem?_set_ne (Ne.symm hidx)]
          exact hN

theorem posSet_applyOp {g : Graph} (hmap : GoodMap g.node_id_map)
    {id : NodeId} (hpos : posSet g id) (op : Op) : posSet (applyOp g op) id := by
  cases op with
  | addNode n => exact posSet_add_node hmap hpos n
  | ensureNode i =>
    show posSet (g.ensure_node i) id
    unfold Graph.ensure_node
    cases hg : getByLeft g.node_id_map i with
    | some j => simpa [hg] using hpos
    | none =>
      simp only [hg]
      exact posSet_add_node hmap hpos _
  | addEdge a b e =>
    obtain ⟨idx, nd, hL, hN, hP⟩ := hpos
    obtain ⟨hp, hn⟩ := add_edge_preserves g a b e
    exact ⟨idx, nd, by rw [show (applyOp g (.addEdge a b e)).node_id_map = g.node_id_map from hn]; exact hL,
      by rw [show (applyOp g (.addEdge a b e)).pet.nodes = g.pet.nodes from hp]; exact hN, hP⟩
  | applyStep ns => exact posSet_apply hpos ns

/-! ## Scheduler publish-policy lemma -/

theorem runPublishes_getD (flags : List Bool) :
    ∀ (w : Bool) (i : Nat), i < flags.length →
      (runPublishes w flags).getD i false =
        !((match i with
           | 0 => w
           | j + 1 => flags.getD j false) && flags.getD i false) := by
  induction flags with
  | nil =>
    intro w i hi
    cases hi
  | cons f rest ih =>
    intro w i hi
    cases i with
    | zero =>
      show publishDecision w f = !(w && f)
      unfold publishDecision
      cases w <;> cases f <;> rfl
    | succ j =>
      have hj : j < rest.length := by simpa using hi
      have h1 : (runPublishes w (f :: rest)).getD (j + 1) false
          = (runPublishes f rest).getD j false := rfl
      rw [h1, ih f j hj]
      cases j with
      | zero => rfl
      | succ k => rfl

/-- C2: in every iteration of the `BgLayout::run` loop, an `Update` is
published after the tick exactly when not both the previous iteration's
finished flag and the current one are true; in particular, whenever the
previous flag is false, an `Update` is published regardless of the
current flag.  `schedulerPublishes` is the per-iteration decision
sequence of the loop, started with `was_finished = false`. -/
theorem scheduler_publish_policy (flags : List Bool) (i : Nat)
    (hi : i < flags.length) :
    (schedulerPublishes flags).getD i false =
      !(prevFinished flags i && flags.getD i false) ∧
    (prevFinished flags i = false →
      (schedulerPublishes flags).getD i false = true) := by
  have h := runPublishes_getD flags false i hi
  have h1 : (schedulerPublishes flags).getD i false =
      !(prevFinished flags i && flags.getD i false) := by
    cases i with
    | zero => exact h
    | succ j => exact h
  refine ⟨h1, ?_⟩
  intro hf
  rw [h1, hf]
  rfl

/-- Witness for C2 at a concrete flag sequence: in iteration 2 of
`[false, true, true]` both the previous and the current flag are true,
and the policy evaluates to "do not publish". -/
theorem scheduler_publish_policy_witness :
    (schedulerPublishes [false, true, true]).getD 2 false =
      !(prevFinished [false, true, true] 2 && ([false, true, true].getD 2 false)) :=
  (scheduler_publish_policy [false, true, true] 2 (by decide)).1

/-- C1: evaluation of `Layout::step` at a concrete layout.  The claim
says `step()` returns the updated positions paired with stable ids, the
unchanged edge list, AND a "finished" flag.  As the equation below
shows, the code's return value is a bare `NodesEdges` record — the
positions zipped with the captured nodes and the captured edges — with
no finished flag in it, even though its only caller,
`BgLayout::do_layout`, destructures the call as
`let (nodes_edges, is_finished) = layout.step();`.  The flag the claim
(and the caller) expects is simply never produced by `Layout::step` as
written. -/
theorem layout_step_returns_bare_nodes_edges :
    (Layout.step exLayout).2 =
      { nodes := [{ xNode with pos := some { x := 1, y := 2 } }]
        edges := [] } := rfl

/-- C3: `BgControl::updates` hits `todo!()` — a panic — when the weak
sender fails to upgrade (publisher already torn down), instead of
returning an explicit "no further updates will be delivered" outcome;
with a live publisher it returns a fresh receiver. -/
theorem updates_panics_when_publisher_gone :
    BgControl.updates none = .panicked ∧
    BgControl.updates (some ()) = .subscribed :=
  ⟨rfl, rfl⟩

/-- C7: the NodeId↔slot map is a true bijection on live entries after
any sequence of `add_node` / `ensure_node` / `add_edge` /
`Layout::apply` calls starting from `Graph::new()`: whenever
`resolve_node_index` answers a slot for an id, `resolve_node_id` maps
that slot back to the id, and conversely. -/
theorem node_bijection_roundtrip (ops : List Op) (x : NodeId) (y : Nat) :
    ((applyOps Graph.new ops).resolve_node_index x = .ok y →
      (applyOps Graph.new ops).resolve_node_id y = .ok x) ∧
    ((applyOps Graph.new ops).resolve_node_id y = .ok x →
      (applyOps Graph.new ops).resolve_node_index x = .ok y) := by
  have hgm := goodMap_applyOps ops goodMap_new
  constructor
  · intro h
    have hx := (resolve_node_index_ok_iff _ x y).mp h
    exact (resolve_node_id_ok_iff _ y x).mpr (goodMap_roundtrip_left hgm hx)
  · intro h
    have hx := (resolve_node_id_ok_iff _ y x).mp h
    exact (resolve_node_index_ok_iff _ x y).mpr (goodMap_roundtrip_right hgm hx)

/-- Witness for C7: after adding node `x`, slot 0 resolves back to
`x`'s id. -/
theorem node_bijection_roundtrip_witness :
    (applyOps Graph.new [Op.addNode xNode]).resolve_node_id 0 = .ok xId :=
  (node_bijection_roundtrip [Op.addNode xNode] xId 0).1 rfl

/-- C9: position persistence — if the node with a given stable id has a
set position, then after any one store operation (`add_node` with the
same or another id, `ensure_node`, `add_edge`, or `Layout::apply` of a
step result) it still has a set position; no operation clears a
position back to absent. -/
theorem position_persistence (g : Graph) (op : Op) (id : NodeId)
    (hmap : GoodMap g.node_id_map) (hpos : posSet g id) :
    posSet (applyOp g op) id :=
  posSet_applyOp hmap hpos op

/-- Witness for C9: in the Scenario-B store, `x` has a set position,
and it survives `ensure_node` of `y`. -/
theorem position_persistence_witness :
    posSet (applyOp gB (.ensureNode yId)) xId :=
  position_persistence gB (.ensureNode yId) xId (by decide)
    ⟨0, xNode, rfl, rfl, rfl⟩

/-! ## C4 and C6: add_edge failure atomicity, add_node idempotence -/

theorem add_edge_resolved_fail (g : Graph) (a b : NodeId) (e : EdgeId)
    (habs : getByLeft g.node_id_map a = none ∨ getByLeft g.node_id_map b = none) :
    ((g.add_edge_resolved a b e).2 = some (.nodeNotFound a.s) ∨
      (g.add_edge_resolved a b e).2 = some (.nodeNotFound b.s)) ∧
    (g.add_edge_resolved a b e).1 = g := by
  unfold Graph.add_edge_resolved
  rcases habs with ha | hb
  · rw [resolve_node_index_err g a ha]
    simp
  · cases h1 : g.resolve_node_index a with
    | error er =>
      have her : er = .nodeNotFound a.s := by
        unfold Graph.resolve_node_index at h1
        cases hg : getByLeft g.node_id_map a <;> rw [hg] at h1 <;> simp_all
      subst her
      simp [h1]
    | ok ia =>
      rw [resolve_node_index_err g b hb]
      simp [h1]

/-- C4: `add_edge` with at least one endpoint id absent fails with
`NotFound` (naming the missing endpoint) and records no edge: the edge
storage, the EdgeId↔slot map, the node storage and the NodeId↔slot map
are all exactly as before the call; only the id counter may have
advanced (when the edge id was generated). -/
theorem add_edge_endpoint_missing (g : Graph) (a b : NodeId)
    (e? : Option EdgeId)
    (habs : getByLeft g.node_id_map a = none ∨ getByLeft g.node_id_map b = none) :
    ((g.add_edge a b e?).2 = some (.nodeNotFound a.s) ∨
      (g.add_edge a b e?).2 = some (.nodeNotFound b.s)) ∧
    (g.add_edge a b e?).1.pet.edges = g.pet.edges ∧
    (g.add_edge a b e?).1.edge_id_map = g.edge_id_map ∧
    (g.add_edge a b e?).1.pet.nodes = g.pet.nodes ∧
    (g.add_edge a b e?).1.node_id_map = g.node_id_map := by
  cases e? with
  | some e =>
    have h := add_edge_resolved_fail g a b e habs
    have heq : g.add_edge a b (some e) = g.add_edge_resolved a b e := rfl
    rw [heq]
    refine ⟨h.1, ?_, ?_, ?_, ?_⟩ <;> rw [h.2]
  | none =>
    obtain ⟨hp, hn, he⟩ := new_edge_id_preserves g
    have habs1 : getByLeft (Graph.new_edge_id g).2.node_id_map a = none ∨
        getByLeft (Graph.new_edge_id g).2.node_id_map b = none := by
      rw [hn]
      exact habs
    have h := add_edge_resolved_fail (Graph.new_edge_id g).2 a b
      (Graph.new_edge_id g).1 habs1
    have heq : g.add_edge a b none =
        (Graph.new_edge_id g).2.add_edge_resolved a b (Graph.new_edge_id g).1 := rfl
    rw [heq]
    exact ⟨h.1, by rw [h.2, hp], by rw [h.2, he], by rw [h.2, hp], by rw [h.2, hn]⟩

/-- Witness for C4 at a concrete store: adding an edge from `x` to the
absent id `z` leaves the EdgeId↔slot map untouched. -/
theorem add_edge_endpoint_missing_witness :
    (gB.add_edge xId zId none).1.edge_id_map = gB.edge_id_map :=
  (add_edge_endpoint_missing gB xId zId none (Or.inr rfl)).2.2.1

theorem getByRight_eq_none_iff {α β : Type} [DecidableEq α] [DecidableEq β]
    {m : List (α × β)} {b : β} :
    getByRight m b = none ↔ ∀ a, (a, b) ∉ m := by
  constructor
  · intro h a ha
    obtain ⟨a', ha'⟩ := getByRight_isSome_of_mem ha
    rw [h] at ha'
    cases ha'
  · intro h
    cases hg : getByRight m b with
    | none => rfl
    | some a => exact absurd (getByRight_mem hg) (h a)

theorem bimapInsert_mem_ext {α β : Type} [DecidableEq α] [DecidableEq β]
    {m : List (α × β)} (hmap : GoodMap m) {a : α} {b : β}
    (hmem : (a, b) ∈ m) :
    ∀ c d, ((c, d) ∈ bimapInsert m a b ↔ (c, d) ∈ m) := by
  intro c d
  rw [mem_bimapInsert]
  constructor
  · rintro (⟨hc, hd⟩ | ⟨hm, _, _⟩)
    · subst hc
      subst hd
      exact hmem
    · exact hm
  · intro hm
    by_cases hc : c = a
    · subst hc
      exact Or.inl ⟨rfl, left_unique hmap.1 hm hmem⟩
    · refine Or.inr ⟨hm, hc, ?_⟩
      intro hd
      subst hd
      exact hc (right_unique hmap.2 hm hmem)

theorem getByLeft_ext {α β : Type} [DecidableEq α] [DecidableEq β]
    {m m2 : List (α × β)} (hm2 : GoodMap m2)
    (hiff : ∀ c d, (c, d) ∈ m2 ↔ (c, d) ∈ m) :
    ∀ q, getByLeft m2 q = getByLeft m q := by
  intro q
  cases hq : getByLeft m q with
  | some r => exact (getByLeft_eq_some_iff hm2).mpr ((hiff q r).mpr (getByLeft_mem hq))
  | none =>
    rw [getByLeft_eq_none_iff] at hq ⊢
    intro d hd
    exact hq d ((hiff q d).mp hd)

theorem getByRight_ext {α β : Type} [DecidableEq α] [DecidableEq β]
    {m m2 : List (α × β)} (hm2 : GoodMap m2)
    (hiff : ∀ c d, (c, d) ∈ m2 ↔ (c, d) ∈ m) :
    ∀ i, getByRight m2 i = getByRight m i := by
  intro i
  cases hq : getByRight m i with
  | some r => exact (getByRight_eq_some_iff hm2).mpr ((hiff r i).mpr (getByRight_mem hq))
  | none =>
    rw [getByRight_eq_none_iff] at hq ⊢
    intro d hd
    exact hq d ((hiff d i).mp hd)

theorem add_node_existing_pet {g : Graph} {n : Node} {j : Nat}
    (h : getByLeft g.node_id_map n.id = some j) : (g.add_node n).pet = g.pet := by
  unfold Graph.add_node
  simp only [h]

theorem add_node_existing_map {g : Graph} {n : Node} {j : Nat}
    (h : getByLeft g.node_id_map n.id = some j) :
    (g.add_node n).node_id_map = bimapInsert g.node_id_map n.id j := by
  unfold Graph.add_node
  simp only [h]

/-- C6: `add_node` is idempotent on the node id.  When the id already
exists, the call keeps the node storage, the edge map and the counter
literally unchanged (so the existing node's label and position are
kept and the new record is discarded), and the NodeId↔slot map is
unchanged as a map (same lookups in both directions).  Adding the same
id twice from the empty store yields exactly one stored node — the
first one. -/
theorem add_node_idempotent (g : Graph) (node : Node) (idx : Nat)
    (hmap : GoodMap g.node_id_map)
    (hex : getByLeft g.node_id_map node.id = some idx) :
    (g.add_node node).pet = g.pet ∧
    (g.add_node node).edge_id_map = g.edge_id_map ∧
    (g.add_node node).id_counter = g.id_counter ∧
    (∀ q, getByLeft (g.add_node node).node_id_map q =
      getByLeft g.node_id_map q) ∧
    (∀ i, getByRight (g.add_node node).node_id_map i =
      getByRight g.node_id_map i) ∧
    (∀ node2, node2.id = node.id →
      ((Graph.new.add_node node2).add_node node).pet.nodes = [node2]) := by
  have hmem : (node.id, idx) ∈ g.node_id_map := getByLeft_mem hex
  have hgm := goodMap_bimapInsert hmap node.id idx
  have hiff := bimapInsert_mem_ext hmap hmem
  have hmapeq := add_node_existing_map hex
  refine ⟨add_node_existing_pet hex, ?_, ?_, ?_, ?_, ?_⟩
  · unfold Graph.add_node
    simp only [hex]
  · unfold Graph.add_node
    simp only [hex]
  · intro q
    rw [hmapeq]
    exact getByLeft_ext hgm hiff q
  · intro i
    rw [hmapeq]
    exact getByRight_ext hgm hiff i
  · intro node2 h2
    have hx : getByLeft (Graph.new.add_node node2).node_id_map node.id
        = some 0 := by
      show getByLeft [(node2.id, 0)] node.id = some 0
      rw [h2]
      simp [getByLeft]
    rw [add_node_existing_pet hx]
    rfl

/-- Witness for C6: re-adding id `x` with a different label and no
position leaves the Scenario-B store's node storage unchanged. -/
theorem add_node_idempotent_witness :
    (gB.add_node { id := xId, data := { label := "other" }, pos := none }).pet
      = gB.pet :=
  (add_node_idempotent gB { id := xId, data := { label := "other" }, pos := none }
    0 (by decide) rfl).1

/-! ## Lemmas about `Layout::apply`, for C8 and C10 -/

theorem consistent_apply {g : Graph} (hcons : consistentMap g)
    (ns : List Node) : consistentMap (Layout.apply ns g).1 := by
  intro p hp
  have e := apply_preserves ns g
  rw [e.1] at hp
  rw [e.2.1]
  exact hcons p hp

theorem apply_err_none_iff (ns : List Node) (g : Graph)
    (hcons : consistentMap g) :
    (Layout.apply ns g).2 = none ↔
      ∀ n ∈ ns, getByLeft g.node_id_map n.id ≠ none := by
  induction ns generalizing g with
  | nil => simp [Layout.apply]
  | cons n rest ih =>
    show (Layout.apply (n :: rest) g).2 = none ↔ _
    unfold Layout.apply
    cases hg : getByLeft g.node_id_map n.id with
    | none =>
      rw [resolve_node_index_err g n.id hg]
      simp only []
      constructor
      · intro h
        cases h
      · intro h
        exact absurd hg (h n (List.mem_cons_self n rest))
    | some i =>
      have hok : g.resolve_node_index n.id = .ok i :=
        (resolve_node_index_ok_iff g n.id i).mpr hg
      have hlt : i < g.pet.nodes.length := hcons (n.id, i) (getByLeft_mem hg)
      have hsome : g.pet.nodes[i]? = some g.pet.nodes[i] :=
        List.getElem?_eq_getElem hlt
      simp only [hok, hsome]
      have hcons2 : consistentMap
          { g with pet := { g.pet with
            nodes := g.pet.nodes.set i (Layout.applyWrite n g.pet.nodes[i]) } } := by
        intro p hp
        simpa using hcons p hp
      rw [ih _ hcons2]
      constructor
      · intro h m hm
        rcases List.mem_cons.mp hm with hmn | hm2
        · subst hmn
          rw [hg]
          simp
        · exact h m hm2
      · intro h m hm
        exact h m (List.mem_cons_of_mem n hm)

theorem apply_err_shape (ns : List Node) (g : Graph) (e : LError)
    (h : (Layout.apply ns g).2 = some e) :
    ∃ s, e = .graphError (.nodeNotFound s) := by
  induction ns generalizing g with
  | nil =>
    exact absurd h (by simp [Layout.apply])
  | cons n rest ih =>
    unfold Layout.apply at h
    cases hg : g.resolve_node_index n.id with
    | error er =>
      have her : er = .nodeNotFound n.id.s := by
        unfold Graph.resolve_node_index at hg
        cases hgg : getByLeft g.node_id_map n.id <;> rw [hgg] at hg <;> simp_all
      subst her
      simp only [hg] at h
      refine ⟨n.id.s, ?_⟩
      have h2 : some (LError.graphError (.nodeNotFound n.id.s)) = some e := h
      exact (Option.some.inj h2).symm
    | ok i =>
      cases hs : g.pet.nodes[i]? with
      | none =>
        simp only [hg, hs] at h
        refine ⟨n.id.s, ?_⟩
        have h2 : some (LError.graphError (.nodeNotFound n.id.s)) = some e := h
        exact (Option.some.inj h2).symm
      | some w =>
        simp only [hg, hs] at h
        exact ih _ h

theorem apply_untouched (ns : List Node) (g : Graph) (j : Nat)
    (h : ∀ n ∈ ns, getByLeft g.node_id_map n.id ≠ some j) :
    (Layout.apply ns g).1.pet.nodes[j]? = g.pet.nodes[j]? := by
  induction ns generalizing g with
  | nil => rfl
  | cons n rest ih =>
    show (Layout.apply (n :: rest) g).1.pet.nodes[j]? = _
    unfold Layout.apply
    cases hg : g.resolve_node_index n.id with
    | error er => simp [hg]
    | ok i =>
      cases hs : g.pet.nodes[i]? with
      | none => simp [hg, hs]
      | some w =>
        simp only [hg, hs]
        have hij : i ≠ j := by
          intro hij
          subst hij
          exact h n (List.mem_cons_self n rest)
            ((resolve_node_index_ok_iff g n.id i).mp hg)
        have h2 : ∀ m ∈ rest, getByLeft
            ({ g with pet := { g.pet with
              nodes := g.pet.nodes.set i (Layout.applyWrite n w) } } : Graph).node_id_map
            m.id ≠ some j :=
          fun m hm => h m (List.mem_cons_of_mem n hm)
        rw [ih _ h2]
        exact List.getElem?_set_ne hij

theorem apply_cons (n : Node) (l : List Node) (g : Graph) :
    Layout.apply (n :: l) g =
      match g.resolve_node_index n.id with
      | .error e => (g, some (.graphError e))
      | .ok node_index =>
        match g.pet.nodes[node_index]? with
        | none => (g, some (.graphError (.nodeNotFound n.id.s)))
        | some w =>
          Layout.apply l { g with pet := { g.pet with
            nodes := g.pet.nodes.set node_index (Layout.applyWrite n w) } } := rfl

theorem apply_split (ns ms : List Node) (g : Graph)
    (h : (Layout.apply ns g).2 = none) :
    Layout.apply (ns ++ ms) g = Layout.apply ms (Layout.apply ns g).1 := by
  induction ns generalizing g with
  | nil => rfl
  | cons n rest ih =>
    cases hg : g.resolve_node_index n.id with
    | error er =>
      exfalso
      rw [apply_cons] at h
      simp [hg] at h
    | ok i =>
      cases hs : g.pet.nodes[i]? with
      | none =>
        exfalso
        rw [apply_cons] at h
        simp [hg, hs] at h
      | some w =>
        have hrec : (Layout.apply rest
            { g with pet := { g.pet with
              nodes := g.pet.nodes.set i (Layout.applyWrite n w) } }).2 = none := by
          rw [apply_cons] at h
          simpa [hg, hs] using h
        show Layout.apply (n :: (rest ++ ms)) g
          = Layout.apply ms (Layout.apply (n :: rest) g).1
        rw [apply_cons n (rest ++ ms), apply_cons n rest]
        simp only [hg, hs]
        exact ih _ hrec

theorem apply_writes (ns : List Node) (g : Graph)
    (hmap : GoodMap g.node_id_map) (hcons : consistentMap g)
    (hnodup : (ns.map Node.id).Nodup)
    (hall : ∀ n ∈ ns, getByLeft g.node_id_map n.id ≠ none) :
    ∀ n ∈ ns, ∀ p, n.pos = some p →
      ∃ nd, (Layout.apply ns g).1.get_node n.id = .ok nd ∧ nd.pos = some p := by
  induction ns generalizing g with
  | nil =>
    intro n hn
    cases hn
  | cons m rest ih =>
    cases hg : getByLeft g.node_id_map m.id with
    | none => exact absurd hg (hall m (List.mem_cons_self m rest))
    | some i =>
      have hok : g.resolve_node_index m.id = .ok i :=
        (resolve_node_index_ok_iff g m.id i).mpr hg
      have hlt : i < g.pet.nodes.length := hcons (m.id, i) (getByLeft_mem hg)
      have hsome : g.pet.nodes[i]? = some g.pet.nodes[i] :=
        List.getElem?_eq_getElem hlt
      have hstep : Layout.apply (m :: rest) g = Layout.apply rest
          { g with pet := { g.pet with
            nodes := g.pet.nodes.set i (Layout.applyWrite m g.pet.nodes[i]) } } := by
        rw [apply_cons]
        simp only [hok, hsome]
      have hconsG : consistentMap
          { g with pet := { g.pet with
            nodes := g.pet.nodes.set i (Layout.applyWrite m g.pet.nodes[i]) } } := by
        intro q hq
        simpa using hcons q hq
      have hnodup2 : (rest.map Node.id).Nodup :=
        (List.nodup_cons.mp (by simpa using hnodup)).2
      have hmid : m.id ∉ rest.map Node.id :=
        (List.nodup_cons.mp (by simpa using hnodup)).1
      intro n hn p hp
      rcases List.mem_cons.mp hn with hnm | hn2
      · subst hnm
        have hne : ∀ r ∈ rest, getByLeft
            ({ g with pet := { g.pet with
              nodes := g.pet.nodes.set i (Layout.applyWrite n g.pet.nodes[i]) } }
              : Graph).node_id_map r.id ≠ some i := by
          intro r hr hri
          have hidne : r.id ≠ n.id := by
            intro he
            exact hmid (he ▸ List.mem_map.mpr ⟨r, hr, rfl⟩)
          exact hidne (right_unique hmap.2 (getByLeft_mem hri) (getByLeft_mem hg))
        have huntouched := apply_untouched rest _ i hne
        rw [hstep]
        refine ⟨Layout.applyWrite n g.pet.nodes[i], ?_, ?_⟩
        · unfold Graph.get_node
          have hmapfix := (apply_preserves rest
            { g with pet := { g.pet with
              nodes := g.pet.nodes.set i (Layout.applyWrite n g.pet.nodes[i]) } }).1
          have hres : (Layout.apply rest
              { g with pet := { g.pet with
                nodes := g.pet.nodes.set i (Layout.applyWrite n g.pet.nodes[i]) } }
              ).1.resolve_node_index n.id = .ok i := by
            rw [resolve_node_index_ok_iff, hmapfix]
            exact hg
          simp only [hres]
          rw [huntouched]
          have hGi : (g.pet.nodes.set i (Layout.applyWrite n g.pet.nodes[i]))[i]?
              = some (Layout.applyWrite n g.pet.nodes[i]) :=
            List.getElem?_set_self hlt
          simp only [hGi]
        · unfold Layout.applyWrite
          rw [hp]
      · rw [hstep]
        refine ih _ ?_ hconsG hnodup2 ?_ n hn2 p hp
        · exact hmap
        · intro r hr
          exact hall r (List.mem_cons_of_mem m hr)

/-- C8: `Layout::apply` of a step result (distinct stable ids, every
result node carrying a position) succeeds exactly when every result
node's id is still present in the store — a `NotFound` failure (and
only a node-`NotFound`) is returned exactly when some id is absent —
and on success every result node's position has been written into the
store under its stable id. -/
theorem apply_result_positions (g : Graph) (ns : List Node)
    (hmap : GoodMap g.node_id_map) (hcons : consistentMap g)
    (hnodup : (ns.map Node.id).Nodup)
    (hpos : ∀ n ∈ ns, n.pos.isSome = true) :
    ((Layout.apply ns g).2 = none ↔
      ∀ n ∈ ns, getByLeft g.node_id_map n.id ≠ none) ∧
    (∀ e, (Layout.apply ns g).2 = some e →
      ∃ s, e = .graphError (.nodeNotFound s)) ∧
    ((Layout.apply ns g).2 = none →
      ∀ n ∈ ns, ∃ p, n.pos = some p ∧
        ∃ nd, (Layout.apply ns g).1.get_node n.id = .ok nd ∧
          nd.pos = some p) := by
  refine ⟨apply_err_none_iff ns g hcons,
    fun e he => apply_err_shape ns g e he, ?_⟩
  intro hok n hn
  obtain ⟨p, hp⟩ := Option.isSome_iff_exists.mp (hpos n hn)
  exact ⟨p, hp, apply_writes ns g hmap hcons hnodup
    ((apply_err_none_iff ns g hcons).mp hok) n hn p hp⟩

/-- Witness for C8: applying a one-node step result whose id is live in
the Scenario-B store succeeds. -/
theorem apply_result_positions_witness :
    (Layout.apply [{ xNode with pos := some { x := 3, y := 4 } }] gB).2
      = none :=
  (apply_result_positions gB [{ xNode with pos := some { x := 3, y := 4 } }]
    (by decide) (by decide) (by decide) (by decide)).1.mpr (by decide)

/-- C10: `Layout::apply` is not atomic on failure — when the result
list is a prefix of live-id nodes followed by a node whose id is absent
from the store, apply fails with `NotFound` at that node, and the
positions of all prefix nodes have already been written into the store
and remain written in the state the failed call leaves behind. -/
theorem apply_partial_write_on_failure (g : Graph) (pre : List Node)
    (bad : Node) (rest : List Node)
    (hmap : GoodMap g.node_id_map) (hcons : consistentMap g)
    (hnodup : (pre.map Node.id).Nodup)
    (hpre : ∀ n ∈ pre, getByLeft g.node_id_map n.id ≠ none)
    (hbad : getByLeft g.node_id_map bad.id = none) :
    (Layout.apply (pre ++ bad :: rest) g).2
      = some (.graphError (.nodeNotFound bad.id.s)) ∧
    ∀ n ∈ pre, ∀ p, n.pos = some p →
      ∃ nd, (Layout.apply (pre ++ bad :: rest) g).1.get_node n.id = .ok nd ∧
        nd.pos = some p := by
  have hok : (Layout.apply pre g).2 = none :=
    (apply_err_none_iff pre g hcons).mpr hpre
  have hsplit := apply_split pre (bad :: rest) g hok
  have hmapfix := (apply_preserves pre g).1
  have hbadres : (Layout.apply pre g).1.resolve_node_index bad.id
      = .error (.nodeNotFound bad.id.s) := by
    apply resolve_node_index_err
    rw [hmapfix]
    exact hbad
  have hfail : Layout.apply (bad :: rest) (Layout.apply pre g).1
      = ((Layout.apply pre g).1, some (.graphError (.nodeNotFound bad.id.s))) := by
    rw [apply_cons]
    simp only [hbadres]
  constructor
  · rw [hsplit, hfail]
  · intro n hn p hp
    have hw := apply_writes pre g hmap hcons hnodup hpre n hn p hp
    rw [hsplit, hfail]
    exact hw

/-- Witness for C10 at a concrete input: in the Scenario-B store, a
result list `[x at (3,4), z at (5,6)]` with `z` absent fails with
`NotFound z`, and the failed call has still written `x`'s position. -/
theorem apply_partial_write_on_failure_witness :
    (Layout.apply ([{ xNode with pos := some { x := 3, y := 4 } }] ++
      ({ id := zId, data := { label := "z" }, pos := some { x := 5, y := 6 } }
        : Node) :: []) gB).2
      = some (.graphError (.nodeNotFound zId.s)) :=
  (apply_partial_write_on_failure gB
    [{ xNode with pos := some { x := 3, y := 4 } }]
    { id := zId, data := { label := "z" }, pos := some { x := 5, y := 6 } } []
    (by decide) (by decide) (by decide) (by decide) rfl).1

/-! ## Lemmas for C5: the warm-start seeding of `Layout::new` -/

theorem collectExcept_ok_length {α β : Type} (f : α → Except GError β)
    (l : List α) (l2 : List β) (h : collectExcept f l = .ok l2) :
    l2.length = l.length := by
  induction l generalizing l2 with
  | nil =>
    unfold collectExcept at h
    cases h
    rfl
  | cons a rest ih =>
    unfold collectExcept at h
    cases hf : f a with
    | error e =>
      simp only [hf] at h
      cases h
    | ok b =>
      simp only [hf] at h
      cases hr : collectExcept f rest with
      | error e =>
        simp only [hr] at h
        cases h
      | ok bs =>
        simp only [hr] at h
        cases h
        simp [ih bs hr]

theorem collectExcept_ok_get {α β : Type} (f : α → Except GError β)
    (l : List α) (l2 : List β) (h : collectExcept f l = .ok l2) :
    ∀ (i : Nat) (a : α), l[i]? = some a →
      ∃ b, f a = .ok b ∧ l2[i]? = some b := by
  induction l generalizing l2 with
  | nil =>
    intro i a ha
    cases ha
  | cons x rest ih =>
    unfold collectExcept at h
    cases hf : f x with
    | error e =>
      simp only [hf] at h
      cases h
    | ok b =>
      simp only [hf] at h
      cases hr : collectExcept f rest with
      | error e =>
        simp only [hr] at h
        cases h
      | ok bs =>
        simp only [hr] at h
        cases h
        intro i a ha
        cases i with
        | zero =>
          have hxa : x = a := by simpa using ha
          subst hxa
          exact ⟨b, hf, by simp⟩
        | succ j =>
          have ha2 : rest[j]? = some a := by simpa using ha
          obtain ⟨c, hc1, hc2⟩ := ih bs hr j a ha2
          exact ⟨c, hc1, by simpa using hc2⟩

theorem foldl_posAccum (nbrs : List Node) :
    ∀ (a b : ℚ) (c : Nat),
      nbrs.foldl Layout.posAccum (a, b, c) =
        (a + ((nbrs.filterMap Node.pos).map Pos.x).sum,
         b + ((nbrs.filterMap Node.pos).map Pos.y).sum,
         c + (nbrs.filterMap Node.pos).length) := by
  induction nbrs with
  | nil =>
    intro a b c
    simp
  | cons nb rest ih =>
    intro a b c
    cases hp : nb.pos with
    | none =>
      have hacc : Layout.posAccum (a, b, c) nb = (a, b, c) := by
        unfold Layout.posAccum
        rw [hp]
      simp only [List.foldl_cons, hacc, ih, List.filterMap_cons, hp]
    | some p =>
      have hacc : Layout.posAccum (a, b, c) nb = (a + p.x, b + p.y, c + 1) := by
        unfold Layout.posAccum
        rw [hp]
      simp only [List.foldl_cons, hacc, ih, List.filterMap_cons, hp,
        List.map_cons, List.sum_cons, List.length_cons, Prod.mk.injEq]
      refine ⟨by ring, by ring, by omega⟩

theorem update_node_pos_spec (node : Node) (g : Graph) (node2 : Node)
    (h : Layout.update_node_pos node g = .ok node2) :
    node2.id = node.id ∧ node2.data = node.data ∧
    (∀ p, node.pos = some p → node2.pos = some p) ∧
    (node.pos = none → ∃ nbrs, g.node_neighbors node.id = .ok nbrs ∧
      (if (nbrs.filterMap Node.pos).length = 0 then node2.pos = none
       else node2.pos = some
        { x := ((nbrs.filterMap Node.pos).map Pos.x).sum
            / ((nbrs.filterMap Node.pos).length : ℚ)
          y := ((nbrs.filterMap Node.pos).map Pos.y).sum
            / ((nbrs.filterMap Node.pos).length : ℚ) })) := by
  unfold Layout.update_node_pos at h
  cases hp : node.pos with
  | some p =>
    simp only [hp] at h
    cases h
    refine ⟨rfl, rfl, ?_, ?_⟩
    · intro q hq
      cases hq
      rfl
    · intro hnone
      cases hnone
  | none =>
    simp only [hp] at h
    cases hn : g.node_neighbors node.id with
    | error e =>
      simp only [hn] at h
      cases h
    | ok nbrs =>
      simp only [hn] at h
      rw [foldl_posAccum nbrs 0 0 0] at h
      simp only [zero_add, Nat.zero_add] at h
      by_cases hL : (nbrs.filterMap Node.pos).length = 0
      · rw [hL] at h
        simp only [gt_iff_lt, Nat.lt_irrefl, if_false] at h
        cases h
        refine ⟨rfl, rfl, ?_, ?_⟩
        · intro q hq
          cases hq
        · intro _
          exact ⟨nbrs, rfl, by simp [hL]⟩
      · have hgt : (nbrs.filterMap Node.pos).length > 0 := Nat.pos_of_ne_zero hL
        rw [if_pos hgt] at h
        cases h
        refine ⟨rfl, rfl, ?_, ?_⟩
        · intro q hq
          cases hq
        · intro _
          exact ⟨nbrs, rfl, by simp [hL]⟩

theorem layout_new_nodes (ph : Physics) (g : Graph) (l : Layout)
    (h : Layout.new ph g = .ok l) :
    collectExcept (fun node => Layout.update_node_pos node g) g.pet.nodes
      = .ok l.nodes := by
  unfold Layout.new at h
  cases h1 : collectExcept (fun node => Layout.update_node_pos node g)
      g.pet.nodes with
  | error e =>
    simp only [h1] at h
    cases h
  | ok nodes =>
    simp only [h1] at h
    cases h2 : collectExcept (Layout.resolve_edge_entry g) g.pet.edges with
    | error e =>
      simp only [h2] at h
      cases h
    | ok edges =>
      simp only [h2] at h
      cases h
      rfl

/-- C5: when a Layout is constructed, the node list is the snapshot
list with every node lacking a position seeded by the arithmetic mean
(coordinate sums divided by the count) of the positions of its
already-positioned undirected neighbours — neighbours without a
position are excluded — while a node with no positioned neighbours is
left unseeded (position still absent) and a node that already had a
position keeps it. -/
theorem layout_seeds_neighbor_average (ph : Physics) (g : Graph)
    (l : Layout) (hl : Layout.new ph g = .ok l) :
    l.nodes.length = g.pet.nodes.length ∧
    ∀ (i : Nat) (node : Node), g.pet.nodes[i]? = some node →
      ∃ node2, l.nodes[i]? = some node2 ∧ node2.id = node.id ∧
        node2.data = node.data ∧
        (∀ p, node.pos = some p → node2.pos = some p) ∧
        (node.pos = none →
          ∃ nbrs, g.node_neighbors node.id = .ok nbrs ∧
            (if (nbrs.filterMap Node.pos).length = 0 then node2.pos = none
             else node2.pos = some
              { x := ((nbrs.filterMap Node.pos).map Pos.x).sum
                  / ((nbrs.filterMap Node.pos).length : ℚ)
                y := ((nbrs.filterMap Node.pos).map Pos.y).sum
                  / ((nbrs.filterMap Node.pos).length : ℚ) })) := by
  have hc := layout_new_nodes ph g l hl
  refine ⟨collectExcept_ok_length _ _ _ hc, ?_⟩
  intro i node hi
  obtain ⟨node2, hn2, hidx⟩ := collectExcept_ok_get _ _ _ hc i node hi
  obtain ⟨h1, h2, h3, h4⟩ := update_node_pos_spec node g node2 hn2
  exact ⟨node2, hidx, h1, h2, h3, h4⟩

/-- Witness for C5: Scenario B.  In the store with `x` at `(0,0)`, `y`
without a position and the edge `x–y`, the constructed layout has as
many nodes as the store and `y` is seeded at `(0,0)` before the first
tick. -/
theorem layout_seeds_neighbor_average_witness :
    lB.nodes.length = gB.pet.nodes.length ∧
    lB.nodes[1]? = some { yNode with pos := some { x := 0, y := 0 } } :=
  ⟨(layout_seeds_neighbor_average ph0 gB lB (by
    simp [Layout.new, collectExcept, Layout.update_node_pos, Layout.posAccum,
      Graph.node_neighbors, Graph.resolve_node_index, Graph.resolve_node_id,
      Layout.resolve_edge_entry, Pet.neighborIndices, getByLeft, getByRight,
      List.find?, gB, xNode, yNode, xId, yId, eId, lB, simBuild, ph0,
      Node.layout_node])).1, rfl⟩
